import Mathlib

/-!
Shallow embedding of the reginald register-map core: the bit-level data
model (`src/reginald/datamodel.py`) and the C-enum output generator
(`src/reginald/builtin_generators/c_funcpack/enums.py`), together with
theorems settling the specification claims about them.

Conventions of the embedding:
- Python `Dict[str, T]` collections are insertion-ordered, so they are
  embedded as association lists `List (String × T)`.
- Machine integers are `Nat`; Python's unbounded non-negative ints need
  no modular reduction.
- Fallible operations (`list.remove`, `get_always_write_value`) return
  `Option`/`Except`.
- `reginald/bits.py` and `reginald/utils.py` are not part of the given
  sources; the operations of theirs that the claims need
  (`Bits.get_bitmask`, `Bits.lsb_position`, `c_sanitize`) are modelled
  from the spec and marked as such in their doc comments.  The `Bits`
  data representation itself (a `bitlist` of positions) is visible from
  its uses in `datamodel.py`.
-/

namespace Reginald

/-! ## List helpers mirroring Python primitives -/

/-- Python `list.remove(b)`: drop the first occurrence of `b`, or fail
(`ValueError`) when `b` is absent. -/
def removeFirst : List Nat → Nat → Option (List Nat)
  | [], _ => none
  | x :: xs, b => if x = b then some xs else (removeFirst xs b).map (fun l => x :: l)

/-- Sequential `list.remove` of every element of the second list, failing as
soon as one removal fails. -/
def removeList : List Nat → List Nat → Option (List Nat)
  | l, [] => some l
  | l, b :: bs =>
    match removeFirst l b with
    | none => none
    | some l2 => removeList l2 bs

/-- Python `int.bit_length`, with explicit fuel so that it is structural
recursion (the fuel `n + 1` always suffices for argument `n`). -/
def bitLenGo : Nat → Nat → Nat
  | 0, _ => 0
  | fuel + 1, n => if n = 0 then 0 else bitLenGo fuel (n / 2) + 1

/-- Python `int.bit_length`: number of bits needed to represent `n` (0 for 0). -/
def bitLength (n : Nat) : Nat := bitLenGo (n + 1) n

/-! ## Data model (`src/reginald/datamodel.py`) -/

/-- `class AccessMode(Enum)`. -/
inductive AccessMode where
  | READ
  | WRITE
deriving DecidableEq, Repr

/-- `AccessMode.to_str`. -/
def AccessMode.to_str : AccessMode → String
  | .READ => "r"
  | .WRITE => "w"

/-- `class Docs`: optional brief and long documentation text. -/
structure Docs where
  brief : Option String
  doc : Option String
deriving DecidableEq, Repr

/-- `class RegEnumEntry`. -/
structure RegEnumEntry where
  name : String
  value : Nat
  docs : Docs
deriving DecidableEq, Repr

/-- `class RegEnum`: `entries` is an insertion-ordered `Dict[str, RegEnumEntry]`. -/
structure RegEnum where
  name : String
  is_shared : Bool
  docs : Docs
  entries : List (String × RegEnumEntry)
deriving DecidableEq, Repr

/-- `class Bits` (from `reginald/bits.py`): its representation, as visible from
`datamodel.py` (`Bits(bitlist=...)`, `.bitlist`), is the list of bit positions. -/
structure Bits where
  bitlist : List Nat
deriving DecidableEq, Repr

/-- Modelled from the spec: `Bits.get_bitmask` (`reginald/bits.py` is not among
the given sources): "`bitmask()` = OR of `1<<p` for each position". -/
def Bits.get_bitmask (b : Bits) : Nat :=
  b.bitlist.foldl (fun acc p => acc ||| (1 <<< p)) 0

/-- Modelled from the spec: `Bits.lsb_position` (`reginald/bits.py` is not among
the given sources): "`lsb_position()` = minimum of positions; fails with
`EmptySet` if the BitSet has no positions". -/
def Bits.lsb_position (b : Bits) : Option Nat :=
  match b.bitlist with
  | [] => none
  | x :: xs => some (xs.foldl min x)

/-- `class AlwaysWrite`. -/
structure AlwaysWrite where
  bits : Bits
  value : Nat
deriving DecidableEq, Repr

/-- `class Field`. -/
structure Field where
  name : String
  bits : Bits
  access : List AccessMode
  docs : Docs
  enum : Option RegEnum := none
deriving DecidableEq, Repr

/-- `Field.access_str`: `"/".join(mode.to_str() for mode in self.access)`. -/
def Field.access_str (f : Field) : String :=
  String.intercalate "/" (f.access.map AccessMode.to_str)

/-- Linear scan of `Field.lookup_enum_entry_name` over the entry dict values. -/
def lookupEntryName : List (String × RegEnumEntry) → Nat → Option String
  | [], _ => none
  | q :: rest, v => if q.2.value = v then some q.2.name else lookupEntryName rest v

/-- `Field.lookup_enum_entry_name`. -/
def Field.lookup_enum_entry_name (f : Field) (val : Nat) : Option String :=
  match f.enum with
  | none => none
  | some e => lookupEntryName e.entries val

/-- Error taxonomy of `Register.get_always_write_value` (spec §7): the Python
code raises `ValueError` at the two checks, and `lsb_position` on an empty
set is the spec's `EmptySet` failure. -/
inductive AwError where
  | NoAlwaysWrite
  | NotAlwaysWrite
  | EmptySet
deriving DecidableEq, Repr

/-- `class Register`: `fields` is an insertion-ordered `Dict[str, Field]`. -/
structure Register where
  name : String
  fields : List (String × Field)
  bitwidth : Nat
  offset : Nat
  always_write : Option AlwaysWrite
  reset_val : Option Nat
  docs : Docs
deriving DecidableEq, Repr

/-- All field bit positions of a register, flattened in declaration order
(the order in which `get_unused_bits` removes them). -/
def fieldBitsOf (r : Register) : List Nat :=
  r.fields.flatMap (fun p => p.2.bits.bitlist)

/-- The always-write bit positions of a register (empty when it has none). -/
def awBitsOf (r : Register) : List Nat :=
  match r.always_write with
  | none => []
  | some aw => aw.bits.bitlist

/-- `Register.get_unused_bits`: starts from `list(range(bitwidth))`, removes
every field bit, and — only when `include_always_write` is false — also
removes the always-write bits.  A failing `list.remove` is `none`. -/
def Register.get_unused_bits (r : Register) (include_always_write : Bool) : Option Bits :=
  match removeList (List.range r.bitwidth) (fieldBitsOf r) with
  | none => none
  | some bits =>
    if include_always_write then some ⟨bits⟩
    else
      match r.always_write with
      | none => some ⟨bits⟩
      | some aw =>
        match removeList bits aw.bits.bitlist with
        | none => none
        | some bits2 => some ⟨bits2⟩

/-- Scan loop of `Register.get_fieldname_at`: first field (in declaration
order) whose bit set contains `bit`; returns that field's `.name`. -/
def findFieldName : List (String × Field) → Nat → Option String
  | [], _ => none
  | p :: rest, bit =>
    if bit ∈ p.2.bits.bitlist then some p.2.name else findFieldName rest bit

/-- `Register.get_fieldname_at`. -/
def Register.get_fieldname_at (r : Register) (bit : Nat) : Option String :=
  findFieldName r.fields bit

/-- `Register.is_bit_always_write`. -/
def Register.is_bit_always_write (r : Register) (bit : Nat) : Bool :=
  match r.always_write with
  | none => false
  | some aw => decide (bit ∈ aw.bits.bitlist)

/-- `Register.get_always_write_value`: fails when the register has no
always-write, when some queried bit is not an always-write bit, or (inside
`lsb_position`) when the query is empty; otherwise
`(always_write.value & bits.get_bitmask()) >> bits.lsb_position()`. -/
def Register.get_always_write_value (r : Register) (bits : Bits) : Except AwError Nat :=
  match r.always_write with
  | none => .error .NoAlwaysWrite
  | some aw =>
    if bits.bitlist.all (fun b => decide (b ∈ aw.bits.bitlist)) then
      match bits.lsb_position with
      | none => .error .EmptySet
      | some l => .ok ((aw.value &&& bits.get_bitmask) >>> l)
    else .error .NotAlwaysWrite

/-- `class RegisterBlock`. -/
structure RegisterBlock where
  name : String
  instances : List (String × Nat)
  docs : Docs
  registers : List (String × Register)
deriving DecidableEq, Repr

/-- `class RegisterMap` of `datamodel.py`: note the field names — `map_name`
(not `device_name`) and block-valued `registers`. -/
structure RegisterMap where
  map_name : String
  docs : Docs
  registers : List (String × RegisterBlock)
  enums : List (String × RegEnum)
deriving DecidableEq, Repr

/-! ## C-enum generator (`src/reginald/builtin_generators/c_funcpack/enums.py`)

The generator's body reads `map.device_name`, iterates `map.registers`
expecting each value to expose `.fields` directly (i.e. a flat
name → register mapping, not `RegisterBlock`s), and iterates enums with
`.items()` expecting a name → entry mapping (not a `RegEnum` with
`.entries`).  None of these attributes exist on the `datamodel.py` classes
above, so the generator is embedded over the record shape its body actually
accesses; the mismatch itself is recorded in the claim results. -/

/-- The attributes of a field that `enums.py` reads: just the optional
name → entry mapping `field.enum`. -/
structure GenField where
  enum : Option (List (String × RegEnumEntry))
deriving DecidableEq, Repr

/-- The attributes of a register that `enums.py` reads: `reg.fields`. -/
structure GenRegister where
  fields : List (String × GenField)
deriving DecidableEq, Repr

/-- The attributes of the map that `enums.py` reads: `device_name`, the
name → entry-dict mapping `enums`, and the flat name → register mapping
`registers`. -/
structure GenRegisterMap where
  device_name : String
  enums : List (String × List (String × RegEnumEntry))
  registers : List (String × GenRegister)
deriving DecidableEq, Repr

/-- Modelled from the spec: `c_sanitize` (`reginald/utils.py` is not among the
given sources): "a pure function mapping an arbitrary display name to a valid
identifier fragment" — every character that is not alphanumeric or an
underscore becomes an underscore (so `"Sensor X"` becomes `"Sensor_X"`). -/
def c_sanitize (s : String) : String :=
  String.mk (s.data.map (fun c => if c.isAlphanum || c = '_' then c else '_'))

/-- Python `str.upper` over the characters of a string. -/
def upperStr (s : String) : String :=
  String.mk (s.data.map Char.toUpper)

/-- Python `str.lower` over the characters of a string. -/
def lowerStr (s : String) : String :=
  String.mk (s.data.map Char.toLower)

/-- The title-line padding of `enums.py`: pad with `=` up to 80 characters. -/
def padTitle (s : String) : String :=
  if s.length < 80 then s ++ String.mk (List.replicate (80 - s.length) '=') else s

/-- One uppercase hexadecimal digit. -/
def hexDigitChar (n : Nat) : Char :=
  if n < 10 then Char.ofNat (48 + n) else Char.ofNat (55 + n)

/-- Digit accumulation for `toHexUpper` (fuel-structured; `n + 1` fuel always
suffices for argument `n`). -/
def hexGo : Nat → Nat → List Char
  | 0, _ => []
  | fuel + 1, n => if n = 0 then [] else hexGo fuel (n / 16) ++ [hexDigitChar (n % 16)]

/-- Python `f"{n:X}"`: uppercase hexadecimal, `"0"` for zero, no leading zeros. -/
def toHexUpper (n : Nat) : String :=
  if n = 0 then "0" else String.mk (hexGo (n + 1) n)

/-- Lines of one global enum block: `typedef enum { ... } <dev>_<enum>_t;`
followed by a blank line, one entry line per entry in declaration order. -/
def globalEnumLines (devU devL : String) (p : String × List (String × RegEnumEntry)) : List String :=
  let enumL := lowerStr (c_sanitize p.1)
  let enumU := upperStr (c_sanitize p.1)
  ["typedef enum \x7b"]
  ++ p.2.map (fun q =>
      "  " ++ devU ++ "_" ++ enumU ++ "_" ++ upperStr (c_sanitize q.1)
      ++ " = 0x" ++ toHexUpper q.2.value ++ "U,")
  ++ ["\x7d " ++ devL ++ "_" ++ enumL ++ "_t;", ""]

/-- Lines of one per-field enum block (empty when the field has no enum);
the symbols are keyed by the field name. -/
def fieldEnumLines (devU devL : String) (q : String × GenField) : List String :=
  let fieldL := lowerStr (c_sanitize q.1)
  let fieldU := upperStr (c_sanitize q.1)
  match q.2.enum with
  | none => []
  | some entries =>
    ["typedef enum \x7b"]
    ++ entries.map (fun e =>
        "  " ++ devU ++ "_" ++ fieldU ++ "_" ++ upperStr (c_sanitize e.1)
        ++ " = 0x" ++ toHexUpper e.2.value ++ "U,")
    ++ ["\x7d " ++ devL ++ "_" ++ fieldL ++ "_t;", ""]

/-- Lines of one per-register section: nothing at all when no field of the
register carries an enum, otherwise a blank line, the padded
`// ==== <register> Enums ` title, a blank line, and every field's block. -/
def registerSectionLines (devU devL : String) (p : String × GenRegister) : List String :=
  let enum_count := (p.2.fields.filter (fun q => q.2.enum.isSome)).length
  if enum_count = 0 then []
  else
    ["", padTitle ("// ==== " ++ p.1 ++ " Enums "), ""]
    ++ p.2.fields.flatMap (fieldEnumLines devU devL)

/-- The fixed lines emitted before the first global enum block: file comment,
include guard, and the padded `// ==== Global Enums ` title. -/
def headerLines (devname devU : String) : List String :=
  ["/*",
   "* " ++ devname ++ " Register Enums.",
   "* Note: do not edit: Generated using Reginald.",
   "*/",
   "",
   "#ifndef " ++ devU ++ "_REG_ENUMS_H_",
   "#define " ++ devU ++ "_REG_ENUMS_H_",
   "",
   "",
   padTitle "// ==== Global Enums ",
   ""]

/-- The `out` list built by `Generator.generate`: header, then one block per
global enum (declaration order, folded left like the Python loop that appends
to `out`), then one section per register (declaration order), then the include
guard's closing line. -/
def generateLines (map : GenRegisterMap) (args : List String) : List String :=
  let devU := upperStr (c_sanitize map.device_name)
  let devL := lowerStr (c_sanitize map.device_name)
  let out := headerLines map.device_name devU
  let out := map.enums.foldl (fun acc p => acc ++ globalEnumLines devU devL p) out
  let out := map.registers.foldl (fun acc p => acc ++ registerSectionLines devU devL p) out
  out ++ ["#endif /* " ++ devU ++ "_REG_ENUMS_H_ */"]

/-- `Generator.generate`: `"\n".join(out)`. -/
def generate (map : GenRegisterMap) (args : List String) : String :=
  String.intercalate "\n" (generateLines map args)

/-! ## Concrete model values used by witnesses and counterexamples -/

/-- Empty documentation. -/
def noDocs : Docs := ⟨none, none⟩

/-- An enum with two distinct entries sharing the numeric value 1. -/
def enumDup : RegEnum :=
  ⟨"E", true, noDocs, [("A", ⟨"A", 1, noDocs⟩), ("B", ⟨"B", 1, noDocs⟩)]⟩

/-- A field bound to `enumDup`. -/
def fieldDup : Field := ⟨"fd", ⟨[0]⟩, [.READ], noDocs, some enumDup⟩

/-- A field with no enum. -/
def fieldPlain : Field := ⟨"fp", ⟨[1]⟩, [.READ, .WRITE], noDocs, none⟩

/-- A register with two disjoint fields (bits 0 and 1) and no always-write. -/
def regTwoFields : Register :=
  ⟨"R2F", [("fd", fieldDup), ("fp", fieldPlain)], 8, 0, none, none, noDocs⟩

/-- A register with an always-write over bits 0, 2, 3 of literal value 4 and
no fields. -/
def regC4 : Register := ⟨"AWREG", [], 4, 0, some ⟨⟨[0, 2, 3]⟩, 4⟩, none, noDocs⟩

/-- A register with no always-write. -/
def regNoAW : Register := ⟨"PLAIN", [], 4, 0, none, none, noDocs⟩

/-- A register with one field at bit 1 and an always-write at bit 0, bitwidth 2:
every bit is covered, so nothing is unused once both are subtracted. -/
def regC1 : Register :=
  ⟨"FULL", [("f", ⟨"f", ⟨[1]⟩, [.READ], noDocs, none⟩)], 2, 0, some ⟨⟨[0]⟩, 1⟩, none, noDocs⟩

/-- A register for the C1 witness: bitwidth 4, one field at bit 1, always-write
at bit 0. -/
def regC1w : Register :=
  ⟨"W", [("f", ⟨"f", ⟨[1]⟩, [.READ], noDocs, none⟩)], 4, 0, some ⟨⟨[0]⟩, 1⟩, none, noDocs⟩

/-- The entry dict of the Scenario A shared enum `Mode`. -/
def scenarioAEntries : List (String × RegEnumEntry) :=
  [("Off", ⟨"Off", 0, noDocs⟩), ("On", ⟨"On", 1, noDocs⟩)]

/-- Scenario A of the spec, in the record shape `enums.py` reads: device
`"Sensor X"`, shared enum `Mode` (`Off=0`, `On=1`), register `CTRL` whose field
`mode` is bound to `Mode`. -/
def scenarioA : GenRegisterMap :=
  ⟨"Sensor X", [("Mode", scenarioAEntries)], [("CTRL", ⟨[("mode", ⟨some scenarioAEntries⟩)]⟩)]⟩

/-- A two-register map: `R1` has only an enum-less field, `R2` has one
enum-bearing field. -/
def c2map : GenRegisterMap :=
  ⟨"Dev", [],
   [("R1", ⟨[("plain", ⟨none⟩)]⟩),
    ("R2", ⟨[("f2", ⟨some [("A", ⟨"A", 0, noDocs⟩)]⟩)]⟩)]⟩

/-! ## Helper lemmas -/

/-- The claim-level description of `"/".join`: empty string for an empty list,
the single element alone, and `"/"`-separated elements otherwise. -/
def joinSlash : List String → String
  | [] => ""
  | [s] => s
  | s :: t :: rest => s ++ "/" ++ joinSlash (t :: rest)

theorem intercalate_go_eq_joinSlash :
    ∀ (as : List String) (a : String), String.intercalate.go a "/" as = joinSlash (a :: as) := by
  intro as
  induction as with
  | nil => intro a; rfl
  | cons b bs ih =>
    intro a
    show String.intercalate.go (a ++ "/" ++ b) "/" bs = joinSlash (a :: b :: bs)
    rw [ih (a ++ "/" ++ b)]
    cases bs with
    | nil => rfl
    | cons c cs => simp [joinSlash, String.append_assoc]

theorem intercalate_slash_eq_joinSlash (l : List String) :
    String.intercalate "/" l = joinSlash l := by
  cases l with
  | nil => rfl
  | cons a as => exact intercalate_go_eq_joinSlash as a

theorem lookupEntryName_eq_none (entries : List (String × RegEnumEntry)) (v : Nat)
    (h : ∀ q ∈ entries, q.2.value ≠ v) : lookupEntryName entries v = none := by
  induction entries with
  | nil => rfl
  | cons q rest ih =>
    have hq : q.2.value ≠ v := h q (List.mem_cons_self q rest)
    simp only [lookupEntryName, if_neg hq]
    exact ih (fun p hp => h p (List.mem_cons_of_mem q hp))

theorem lookupEntryName_first (l1 : List (String × RegEnumEntry))
    (p : String × RegEnumEntry) (l2 : List (String × RegEnumEntry)) (v : Nat)
    (h1 : ∀ q ∈ l1, q.2.value ≠ v) (hp : p.2.value = v) :
    lookupEntryName (l1 ++ p :: l2) v = some p.2.name := by
  induction l1 with
  | nil => simp [lookupEntryName, hp]
  | cons q rest ih =>
    have hq : q.2.value ≠ v := h1 q (List.mem_cons_self q rest)
    simp only [List.cons_append, lookupEntryName, if_neg hq]
    exact ih (fun r hr => h1 r (List.mem_cons_of_mem q hr))

theorem lookupEntryName_some (entries : List (String × RegEnumEntry)) (v : Nat) (n : String)
    (h : lookupEntryName entries v = some n) :
    ∃ q, q ∈ entries ∧ q.2.name = n ∧ q.2.value = v := by
  induction entries with
  | nil => simp [lookupEntryName] at h
  | cons q rest ih =>
    by_cases hq : q.2.value = v
    · refine ⟨q, List.mem_cons_self q rest, ?_, hq⟩
      simpa [lookupEntryName, hq] using h
    · simp only [lookupEntryName, if_neg hq] at h
      obtain ⟨r, hr, hn, hv⟩ := ih h
      exact ⟨r, List.mem_cons_of_mem q hr, hn, hv⟩

/-- Disjointness of two (name, field) pairs: no shared bit position. -/
def fieldsDisjoint (a b : String × Field) : Prop :=
  ∀ x ∈ a.2.bits.bitlist, x ∉ b.2.bits.bitlist

instance : DecidableRel fieldsDisjoint := by
  intro a b
  unfold fieldsDisjoint
  infer_instance

theorem findFieldName_eq_none (fields : List (String × Field)) (bit : Nat)
    (h : ∀ p ∈ fields, bit ∉ p.2.bits.bitlist) : findFieldName fields bit = none := by
  induction fields with
  | nil => rfl
  | cons p rest ih =>
    have hp : bit ∉ p.2.bits.bitlist := h p (List.mem_cons_self p rest)
    simp only [findFieldName, if_neg hp]
    exact ih (fun q hq => h q (List.mem_cons_of_mem p hq))

theorem findFieldName_first (l1 : List (String × Field)) (p : String × Field)
    (l2 : List (String × Field)) (bit : Nat)
    (h1 : ∀ q ∈ l1, bit ∉ q.2.bits.bitlist) (hp : bit ∈ p.2.bits.bitlist) :
    findFieldName (l1 ++ p :: l2) bit = some p.2.name := by
  induction l1 with
  | nil => simp [findFieldName, hp]
  | cons q rest ih =>
    have hq : bit ∉ q.2.bits.bitlist := h1 q (List.mem_cons_self q rest)
    simp only [List.cons_append, findFieldName, if_neg hq]
    exact ih (fun r hr => h1 r (List.mem_cons_of_mem q hr))

theorem findFieldName_of_pairwise (fields : List (String × Field)) (bit : Nat)
    (hpw : List.Pairwise fieldsDisjoint fields) (p : String × Field)
    (hmem : p ∈ fields) (hbit : bit ∈ p.2.bits.bitlist) :
    findFieldName fields bit = some p.2.name := by
  induction fields with
  | nil => cases hmem
  | cons q rest ih =>
    rw [List.pairwise_cons] at hpw
    rcases List.mem_cons.mp hmem with heq | htail
    · subst heq
      simp [findFieldName, hbit]
    · have hq : bit ∉ q.2.bits.bitlist := by
        intro hin
        exact hpw.1 p htail bit hin hbit
      simp only [findFieldName, if_neg hq]
      exact ih hpw.2 htail

/-! ## Claim theorems -/

/-- C6: `Field.lookup_enum_entry_name` returns `none` when the field has no
enum; otherwise it returns the `.name` of the first entry (in declared entry
order) whose value equals `v`, `none` when no entry matches, and any returned
name belongs to an entry whose value equals `v`. -/
theorem lookup_enum_entry_name_spec (f : Field) (v : Nat) :
    (f.enum = none → f.lookup_enum_entry_name v = none) ∧
    (∀ e, f.enum = some e →
      ((∀ q ∈ e.entries, q.2.value ≠ v) → f.lookup_enum_entry_name v = none) ∧
      (∀ l1 p l2, e.entries = l1 ++ p :: l2 → (∀ q ∈ l1, q.2.value ≠ v) → p.2.value = v →
        f.lookup_enum_entry_name v = some p.2.name) ∧
      (∀ n, f.lookup_enum_entry_name v = some n →
        ∃ q, q ∈ e.entries ∧ q.2.name = n ∧ q.2.value = v)) := by
  constructor
  · intro h
    simp [Field.lookup_enum_entry_name, h]
  · intro e he
    refine ⟨?_, ?_, ?_⟩
    · intro h
      simp [Field.lookup_enum_entry_name, he, lookupEntryName_eq_none e.entries v h]
    · intro l1 p l2 hsplit h1 hp
      simp [Field.lookup_enum_entry_name, he, hsplit, lookupEntryName_first l1 p l2 v h1 hp]
    · intro n h
      simp only [Field.lookup_enum_entry_name, he] at h
      exact lookupEntryName_some e.entries v n h

/-- C6 witness: on a field whose enum has two entries `A` and `B` both of
value 1, looking up 1 returns the first entry's name `A`, and looking up 2
returns `none`. -/
theorem lookup_enum_entry_name_witness :
    fieldDup.lookup_enum_entry_name 1 = some "A" ∧
    fieldDup.lookup_enum_entry_name 2 = none := by
  constructor
  · exact ((lookup_enum_entry_name_spec fieldDup 1).2 enumDup rfl).2.1
      [] ("A", ⟨"A", 1, noDocs⟩) [("B", ⟨"B", 1, noDocs⟩)] rfl (by simp) rfl
  · exact ((lookup_enum_entry_name_spec fieldDup 2).2 enumDup rfl).1 (by decide)

/-- C8: `Register.get_fieldname_at` returns the name of the first field in
declared order whose bit set contains `bit`, `none` when no field contains it;
and when the fields are pairwise disjoint, any field containing `bit`
determines the result, independently of scan order. -/
theorem get_fieldname_at_spec (r : Register) (bit : Nat) :
    ((∀ p ∈ r.fields, bit ∉ p.2.bits.bitlist) → r.get_fieldname_at bit = none) ∧
    (∀ l1 p l2, r.fields = l1 ++ p :: l2 → (∀ q ∈ l1, bit ∉ q.2.bits.bitlist) →
      bit ∈ p.2.bits.bitlist → r.get_fieldname_at bit = some p.2.name) ∧
    (List.Pairwise fieldsDisjoint r.fields → ∀ p ∈ r.fields, bit ∈ p.2.bits.bitlist →
      r.get_fieldname_at bit = some p.2.name) := by
  refine ⟨?_, ?_, ?_⟩
  · intro h
    exact findFieldName_eq_none r.fields bit h
  · intro l1 p l2 hsplit h1 hp
    unfold Register.get_fieldname_at
    rw [hsplit]
    exact findFieldName_first l1 p l2 bit h1 hp
  · intro hpw p hmem hbit
    exact findFieldName_of_pairwise r.fields bit hpw p hmem hbit

/-- C8 witness: on a register with disjoint fields `fd` (bit 0) and `fp`
(bit 1), the lookup at bit 1 returns `fp` — resolved through the
pairwise-disjointness part, at the second field of the scan order — and the
lookup at bit 5 (in no field) returns `none`. -/
theorem get_fieldname_at_witness :
    regTwoFields.get_fieldname_at 1 = some "fp" ∧
    regTwoFields.get_fieldname_at 5 = none := by
  constructor
  · exact (get_fieldname_at_spec regTwoFields 1).2.2 (by decide)
      ("fp", fieldPlain) (by decide) (by decide)
  · exact (get_fieldname_at_spec regTwoFields 5).1 (by decide)

/-- C9: `Register.is_bit_always_write` is true exactly when the register has
an always-write whose bit set contains `bit`; in particular it is false
whenever the register has none. -/
theorem is_bit_always_write_spec (r : Register) (bit : Nat) :
    r.is_bit_always_write bit = true ↔
      ∃ aw, r.always_write = some aw ∧ bit ∈ aw.bits.bitlist := by
  cases h : r.always_write with
  | none => simp [Register.is_bit_always_write, h]
  | some aw => simp [Register.is_bit_always_write, h]

/-- C10: `Field.access_str` joins the short forms of the access modes with
`"/"` in list order, duplicates preserved (`READ` is `"r"`, `WRITE` is
`"w"`), and is the empty string for an empty access list. -/
theorem access_str_spec (f : Field) :
    f.access_str = joinSlash (f.access.map AccessMode.to_str) ∧
    AccessMode.to_str .READ = "r" ∧
    AccessMode.to_str .WRITE = "w" ∧
    Field.access_str { f with access := [] } = "" ∧
    Field.access_str { f with access := [.READ, .WRITE] } = "r/w" ∧
    Field.access_str { f with access := [.READ, .READ] } = "r/r" := by
  refine ⟨?_, rfl, rfl, rfl, rfl, rfl⟩
  exact intercalate_slash_eq_joinSlash (f.access.map AccessMode.to_str)

theorem foldl_append_eq_flatMap {α β : Type} (g : α → List β) :
    ∀ (l : List α) (init : List β),
      l.foldl (fun acc x => acc ++ g x) init = init ++ l.flatMap g := by
  intro l
  induction l with
  | nil => intro init; simp
  | cons x xs ih =>
    intro init
    simp only [List.foldl_cons, List.flatMap_cons, ih (init ++ g x), List.append_assoc]

/-- C7: the C-enum generator is deterministic — equal inputs give equal
output text — and the emitted lines are the fixed header, then one block per
global enum in declaration order, then one section per register in
declaration order (each section walking its fields in declaration order
inside `registerSectionLines`), then the closing include-guard line. -/
theorem generate_deterministic (m : GenRegisterMap) (args1 args2 : List String) :
    generate m args1 = generate m args2 ∧
    generateLines m args1 =
      headerLines m.device_name (upperStr (c_sanitize m.device_name))
      ++ m.enums.flatMap
          (globalEnumLines (upperStr (c_sanitize m.device_name))
            (lowerStr (c_sanitize m.device_name)))
      ++ m.registers.flatMap
          (registerSectionLines (upperStr (c_sanitize m.device_name))
            (lowerStr (c_sanitize m.device_name)))
      ++ ["#endif /* " ++ upperStr (c_sanitize m.device_name) ++ "_REG_ENUMS_H_ */"] := by
  constructor
  · rfl
  · simp only [generateLines]
    rw [foldl_append_eq_flatMap, foldl_append_eq_flatMap]

/-- C2 (evaluation of the generator as written): on the record shape the code
actually reads, a register with one enum-bearing field receives a section
title and its typedef, while a register with only enum-less fields produces
no section title at all.  (On the `datamodel.py` `RegisterMap` itself the
generator cannot run: it reads `device_name`, flat `registers` and
entry-dict enums, none of which that class provides.) -/
theorem generator_register_sections :
    padTitle "// ==== R2 Enums " ∈ generateLines c2map [] ∧
    padTitle "// ==== R1 Enums " ∉ generateLines c2map [] ∧
    "  DEV_F2_A = 0x0U," ∈ generateLines c2map [] ∧
    "\x7d dev_f2_t;" ∈ generateLines c2map [] ∧
    (generateLines c2map []).count "typedef enum \x7b" = 1 := by
  decide

/-- C3 (evaluation at Scenario A): the full output of the generator on the
Scenario A input.  The global-enums part does contain
`SENSOR_X_MODE_OFF = 0x0U,` and `SENSOR_X_MODE_ON = 0x1U,` inside a
`typedef enum` block closed by `sensor_x_mode_t;` — but, contrary to the
claim, a per-register `// ==== CTRL Enums` section follows, repeating the
very same enumerator symbols and type alias (the code never consults
`is_shared`), so the `typedef enum` opener appears twice. -/
theorem generator_scenarioA_eval :
    generateLines scenarioA [] =
      ["/*",
       "* Sensor X Register Enums.",
       "* Note: do not edit: Generated using Reginald.",
       "*/",
       "",
       "#ifndef SENSOR_X_REG_ENUMS_H_",
       "#define SENSOR_X_REG_ENUMS_H_",
       "",
       "",
       padTitle "// ==== Global Enums ",
       "",
       "typedef enum \x7b",
       "  SENSOR_X_MODE_OFF = 0x0U,",
       "  SENSOR_X_MODE_ON = 0x1U,",
       "\x7d sensor_x_mode_t;",
       "",
       "",
       padTitle "// ==== CTRL Enums ",
       "",
       "typedef enum \x7b",
       "  SENSOR_X_MODE_OFF = 0x0U,",
       "  SENSOR_X_MODE_ON = 0x1U,",
       "\x7d sensor_x_mode_t;",
       "",
       "#endif /* SENSOR_X_REG_ENUMS_H_ */"] ∧
    (generateLines scenarioA []).count "typedef enum \x7b" = 2 ∧
    padTitle "// ==== CTRL Enums " ∈ generateLines scenarioA [] := by
  refine ⟨by decide, by decide, by decide⟩

/-- C5 (amended): `get_always_write_value` fails with `NoAlwaysWrite` when the
register has no always-write; fails with `NotAlwaysWrite` when some queried
bit is outside the always-write bit set; fails with `EmptySet` when the query
is empty (so `lsb_position` has no value); and otherwise returns exactly
`(always_write.value &&& bits.get_bitmask) >>> bits.lsb_position` — the
register itself is never modified (the embedding is a pure function of `r`). -/
theorem get_always_write_value_spec (r : Register) (bits : Bits) :
    (r.always_write = none →
      r.get_always_write_value bits = .error .NoAlwaysWrite) ∧
    (∀ aw, r.always_write = some aw → ¬(∀ b ∈ bits.bitlist, b ∈ aw.bits.bitlist) →
      r.get_always_write_value bits = .error .NotAlwaysWrite) ∧
    (∀ aw, r.always_write = some aw → (∀ b ∈ bits.bitlist, b ∈ aw.bits.bitlist) →
      bits.bitlist = [] →
      r.get_always_write_value bits = .error .EmptySet) ∧
    (∀ aw l, r.always_write = some aw → (∀ b ∈ bits.bitlist, b ∈ aw.bits.bitlist) →
      bits.lsb_position = some l →
      r.get_always_write_value bits = .ok ((aw.value &&& bits.get_bitmask) >>> l)) := by
  refine ⟨?_, ?_, ?_, ?_⟩
  · intro h
    simp [Register.get_always_write_value, h]
  · intro aw haw hn
    have hall : ¬(bits.bitlist.all (fun b => decide (b ∈ aw.bits.bitlist)) = true) := by
      rw [List.all_eq_true]
      simpa using hn
    simp only [Register.get_always_write_value, haw]
    rw [if_neg hall]
  · intro aw haw hsub hnil
    have hall : bits.bitlist.all (fun b => decide (b ∈ aw.bits.bitlist)) = true := by
      rw [List.all_eq_true]
      simpa using hsub
    simp [Register.get_always_write_value, haw, hall, Bits.lsb_position, hnil]
  · intro aw l haw hsub hlsb
    have hall : bits.bitlist.all (fun b => decide (b ∈ aw.bits.bitlist)) = true := by
      rw [List.all_eq_true]
      simpa using hsub
    simp [Register.get_always_write_value, haw, hall, hlsb]

/-- C5 counterexample: on a register that does have an always-write
(`regC4`, always-write bits 0, 2, 3) queried with the empty bit set, every
queried position is (vacuously) an always-write bit, yet the call fails with
`EmptySet` instead of returning a value, so the claim's three-way case split
misses a case. -/
theorem get_always_write_value_empty_query :
    regC4.always_write ≠ none ∧
    (∀ b ∈ (Bits.mk []).bitlist, b ∈ awBitsOf regC4) ∧
    regC4.get_always_write_value ⟨[]⟩ = .error .EmptySet ∧
    AwError.EmptySet ≠ .NoAlwaysWrite ∧
    AwError.EmptySet ≠ .NotAlwaysWrite := by
  refine ⟨by decide, by decide, rfl, by decide, by decide⟩

/-- C5 witness: each branch of `get_always_write_value_spec` at a concrete
register and query. -/
theorem get_always_write_value_spec_witness :
    regNoAW.get_always_write_value ⟨[0]⟩ = .error .NoAlwaysWrite ∧
    regC4.get_always_write_value ⟨[1]⟩ = .error .NotAlwaysWrite ∧
    regC4.get_always_write_value ⟨[]⟩ = .error .EmptySet ∧
    regC4.get_always_write_value ⟨[0, 2]⟩ = .ok ((4 &&& Bits.get_bitmask ⟨[0, 2]⟩) >>> 0) := by
  refine ⟨?_, ?_, ?_, ?_⟩
  · exact (get_always_write_value_spec regNoAW ⟨[0]⟩).1 rfl
  · exact (get_always_write_value_spec regC4 ⟨[1]⟩).2.1 ⟨⟨[0, 2, 3]⟩, 4⟩ rfl (by decide)
  · exact (get_always_write_value_spec regC4 ⟨[]⟩).2.2.1 ⟨⟨[0, 2, 3]⟩, 4⟩ rfl (by decide) rfl
  · exact (get_always_write_value_spec regC4 ⟨[0, 2]⟩).2.2.2 ⟨⟨[0, 2, 3]⟩, 4⟩ 0 rfl (by decide) rfl

theorem bitLenGo_le : ∀ (fuel n k : Nat), n < 2 ^ k → bitLenGo fuel n ≤ k := by
  intro fuel
  induction fuel with
  | zero => intro n k _; exact Nat.zero_le k
  | succ f ih =>
    intro n k h
    by_cases hn : n = 0
    · simp [bitLenGo, hn]
    · rw [bitLenGo, if_neg hn]
      cases k with
      | zero =>
        exfalso
        exact hn (Nat.lt_one_iff.mp (by simpa using h))
      | succ k2 =>
        have hdiv : n / 2 < 2 ^ k2 := by
          rw [Nat.div_lt_iff_lt_mul (by omega : 0 < 2)]
          calc n < 2 ^ (k2 + 1) := h
            _ = 2 ^ k2 * 2 := by rw [Nat.pow_succ]
        exact Nat.succ_le_succ (ih (n / 2) k2 hdiv)

theorem bitLength_le {n k : Nat} (h : n < 2 ^ k) : bitLength n ≤ k :=
  bitLenGo_le (n + 1) n k h

theorem foldl_min_le (xs : List Nat) :
    ∀ x : Nat, xs.foldl min x ≤ x ∧ ∀ p ∈ xs, xs.foldl min x ≤ p := by
  induction xs with
  | nil => intro x; exact ⟨Nat.le_refl x, by simp⟩
  | cons y ys ih =>
    intro x
    have hmin := ih (min x y)
    constructor
    · exact le_trans hmin.1 (Nat.min_le_left x y)
    · intro p hp
      rcases List.mem_cons.mp hp with heq | htail
      · subst heq
        exact le_trans hmin.1 (Nat.min_le_right x p)
      · exact hmin.2 p htail

/-- Maximum of a list of naturals (0 for the empty list). -/
def maxOfList (l : List Nat) : Nat := l.foldl max 0

theorem le_foldl_max (xs : List Nat) :
    ∀ x : Nat, x ≤ xs.foldl max x ∧ ∀ p ∈ xs, p ≤ xs.foldl max x := by
  induction xs with
  | nil => intro x; exact ⟨Nat.le_refl x, by simp⟩
  | cons y ys ih =>
    intro x
    have hmax := ih (max x y)
    constructor
    · exact le_trans (Nat.le_max_left x y) hmax.1
    · intro p hp
      rcases List.mem_cons.mp hp with heq | htail
      · subst heq
        exact le_trans (Nat.le_max_right x p) hmax.1
      · exact hmax.2 p htail

theorem mem_le_maxOfList (l : List Nat) : ∀ p ∈ l, p ≤ maxOfList l :=
  (le_foldl_max l 0).2

theorem lsb_position_le (b : Bits) (l : Nat) (h : b.lsb_position = some l) :
    ∀ p ∈ b.bitlist, l ≤ p := by
  cases hb : b.bitlist with
  | nil => simp [Bits.lsb_position, hb] at h
  | cons x xs =>
    have hl : xs.foldl min x = l := by
      simpa [Bits.lsb_position, hb] using h
    intro p hp
    rcases List.mem_cons.mp hp with heq | htail
    · exact hl ▸ heq ▸ (foldl_min_le xs x).1
    · exact hl ▸ (foldl_min_le xs x).2 p htail

theorem lsb_position_mem_cons (x : Nat) (xs : List Nat) :
    xs.foldl min x = x ∨ xs.foldl min x ∈ xs := by
  induction xs generalizing x with
  | nil => exact Or.inl rfl
  | cons y ys ih =>
    rcases ih (min x y) with h | h
    · rw [List.foldl_cons, h]
      rcases Nat.le_total x y with hxy | hxy
      · exact Or.inl (Nat.min_eq_left hxy)
      · rw [Nat.min_eq_right hxy]
        exact Or.inr (List.mem_cons_self y ys)
    · rw [List.foldl_cons]
      exact Or.inr (List.mem_cons_of_mem y h)

theorem testBit_foldl_or (lst : List Nat) :
    ∀ (acc i : Nat),
      (lst.foldl (fun a p => a ||| (1 <<< p)) acc).testBit i
        = (acc.testBit i || decide (i ∈ lst)) := by
  induction lst with
  | nil => intro acc i; simp
  | cons p ps ih =>
    intro acc i
    rw [List.foldl_cons, ih, Nat.testBit_or, Nat.one_shiftLeft, Nat.testBit_two_pow]
    by_cases h1 : i = p
    · subst h1
      simp [List.mem_cons]
    · have h1s : ¬p = i := fun h => h1 h.symm
      by_cases h2 : i ∈ ps <;> simp [h1, h2, h1s, List.mem_cons]

theorem testBit_get_bitmask (b : Bits) (i : Nat) :
    b.get_bitmask.testBit i = decide (i ∈ b.bitlist) := by
  unfold Bits.get_bitmask
  rw [testBit_foldl_or]
  simp

theorem get_bitmask_lt (b : Bits) (M : Nat) (h : ∀ p ∈ b.bitlist, p ≤ M) :
    b.get_bitmask < 2 ^ (M + 1) := by
  apply Nat.lt_pow_two_of_testBit
  intro i hi
  rw [testBit_get_bitmask]
  simp only [decide_eq_false_iff_not]
  intro hmem
  have := h i hmem
  omega

/-- C4 (amended): for a non-empty strict subset `bits` of the always-write bit
set, `get_always_write_value` succeeds with a value whose bit-length is at
most `msb(bits) - lsb(bits) + 1` (the span of the queried positions — not
their popcount), and shifting the value back left by `lsb_position` and
masking with `bits.get_bitmask` reproduces exactly the always-write literal's
bits at the queried positions. -/
theorem get_always_write_value_extract (r : Register) (aw : AlwaysWrite) (bits : Bits)
    (haw : r.always_write = some aw)
    (hne : bits.bitlist ≠ [])
    (hsub : ∀ b ∈ bits.bitlist, b ∈ aw.bits.bitlist)
    (_hstrict : ∃ b ∈ aw.bits.bitlist, b ∉ bits.bitlist) :
    ∃ v l, bits.lsb_position = some l ∧
      r.get_always_write_value bits = .ok v ∧
      bitLength v ≤ maxOfList bits.bitlist - l + 1 ∧
      ((v <<< l) &&& bits.get_bitmask) = aw.value &&& bits.get_bitmask := by
  obtain ⟨x, xs, hb⟩ : ∃ x xs, bits.bitlist = x :: xs := by
    cases hbl : bits.bitlist with
    | nil => exact absurd hbl hne
    | cons x xs => exact ⟨x, xs, rfl⟩
  have hlsb : bits.lsb_position = some (xs.foldl min x) := by
    simp [Bits.lsb_position, hb]
  set l := xs.foldl min x with hl
  have hok := (get_always_write_value_spec r bits).2.2.2 aw l haw hsub hlsb
  set a := aw.value &&& bits.get_bitmask with ha
  refine ⟨a >>> l, l, hlsb, hok, ?_, ?_⟩
  · set M := maxOfList bits.bitlist with hM
    have hMub : ∀ p ∈ bits.bitlist, p ≤ M := mem_le_maxOfList bits.bitlist
    have hlM : l ≤ M := by
      rcases lsb_position_mem_cons x xs with h | h
      · rw [← hl] at h
        rw [h]
        exact hMub x (by rw [hb]; exact List.mem_cons_self x xs)
      · rw [← hl] at h
        exact hMub l (by rw [hb]; exact List.mem_cons_of_mem x h)
    have hmask : bits.get_bitmask < 2 ^ (M + 1) := get_bitmask_lt bits M hMub
    have haM : a < 2 ^ (M + 1) := Nat.and_lt_two_pow aw.value hmask
    have hdiv : a >>> l < 2 ^ (M + 1 - l) := by
      rw [Nat.shiftRight_eq_div_pow]
      rw [Nat.div_lt_iff_lt_mul (Nat.pos_pow_of_pos l (by omega))]
      calc a < 2 ^ (M + 1) := haM
        _ = 2 ^ (M + 1 - l) * 2 ^ l := by
            rw [← Nat.pow_add, Nat.sub_add_cancel (by omega)]
    have : M + 1 - l = M - l + 1 := by omega
    exact this ▸ bitLength_le hdiv
  · apply Nat.eq_of_testBit_eq
    intro i
    rw [Nat.testBit_and, Nat.testBit_shiftLeft, Nat.testBit_shiftRight]
    by_cases hil : l ≤ i
    · have hadd : l + (i - l) = i := by omega
      rw [hadd]
      have hax : a.testBit i = (aw.value.testBit i && bits.get_bitmask.testBit i) := by
        rw [ha, Nat.testBit_and]
      rw [hax]
      cases aw.value.testBit i <;> cases bits.get_bitmask.testBit i <;> simp [hil]
    · have hmb : bits.get_bitmask.testBit i = false := by
        rw [testBit_get_bitmask]
        simp only [decide_eq_false_iff_not]
        intro hmem
        exact hil (lsb_position_le bits l hlsb i hmem)
      have hax : a.testBit i = false := by
        rw [ha, Nat.testBit_and, hmb, Bool.and_false]
      rw [hax, hmb]
      simp [hil]

/-- C4 counterexample: `regC4` has always-write bits 0, 2, 3 with literal
value 4; the query `bits = [0, 2]` is a non-empty strict subset, the call
returns 4 (mask then shift, no compaction), and `bit_length 4 = 3` exceeds
`popcount(bits) = 2`, refuting the claimed bound for non-contiguous queries. -/
theorem get_always_write_value_popcount_refuted :
    (Bits.mk [0, 2]).bitlist ≠ [] ∧
    (∀ b ∈ (Bits.mk [0, 2]).bitlist, b ∈ awBitsOf regC4) ∧
    (∃ b ∈ awBitsOf regC4, b ∉ (Bits.mk [0, 2]).bitlist) ∧
    regC4.get_always_write_value ⟨[0, 2]⟩ = .ok 4 ∧
    ¬(bitLength 4 ≤ (Bits.mk [0, 2]).bitlist.length) := by
  refine ⟨by decide, by decide, by decide, rfl, by decide⟩

/-- C4 witness: the amended extraction theorem applied to `regC4` with query
`[0, 2]`. -/
theorem get_always_write_value_extract_witness :
    ∃ v l, (Bits.mk [0, 2]).lsb_position = some l ∧
      regC4.get_always_write_value ⟨[0, 2]⟩ = .ok v ∧
      bitLength v ≤ maxOfList (Bits.mk [0, 2]).bitlist - l + 1 ∧
      ((v <<< l) &&& (Bits.mk [0, 2]).get_bitmask) = 4 &&& (Bits.mk [0, 2]).get_bitmask :=
  get_always_write_value_extract regC4 ⟨⟨[0, 2, 3]⟩, 4⟩ ⟨[0, 2]⟩ rfl (by decide) (by decide)
    (by decide)

theorem removeFirst_of_mem {l : List Nat} {b : Nat} (h : b ∈ l) :
    removeFirst l b = some (l.erase b) := by
  induction l with
  | nil => cases h
  | cons x xs ih =>
    by_cases hx : x = b
    · subst hx
      simp [removeFirst]
    · have hmem : b ∈ xs := by
        rcases List.mem_cons.mp h with h1 | h1
        · exact absurd h1.symm hx
        · exact h1
      have hbeq : ¬(x == b) := by simpa using hx
      rw [removeFirst, if_neg hx, ih hmem, List.erase_cons_tail hbeq]
      rfl

theorem removeList_eq_filter :
    ∀ (bs l : List Nat), l.Nodup → bs.Nodup → (∀ b ∈ bs, b ∈ l) →
      removeList l bs = some (l.filter (fun x => decide (x ∉ bs))) := by
  intro bs
  induction bs with
  | nil =>
    intro l _ _ _
    simp [removeList]
  | cons b bs2 ih =>
    intro l hlnd hbnd hsub
    have hbmem : b ∈ l := hsub b (List.mem_cons_self b bs2)
    have hbnotin : b ∉ bs2 := (List.nodup_cons.mp hbnd).1
    have hsub2 : ∀ x ∈ bs2, x ∈ l.erase b := by
      intro x hx
      have hxb : x ≠ b := fun he => hbnotin (he ▸ hx)
      exact (List.mem_erase_of_ne hxb).mpr (hsub x (List.mem_cons_of_mem b hx))
    rw [removeList, removeFirst_of_mem hbmem]
    show removeList (l.erase b) bs2 = _
    rw [ih (l.erase b) (hlnd.erase b) (List.nodup_cons.mp hbnd).2 hsub2]
    congr 1
    rw [hlnd.erase_eq_filter b, List.filter_filter]
    apply List.filter_congr
    intro x _
    by_cases h1 : x = b <;> by_cases h2 : x ∈ bs2 <;> simp [h1, h2, List.mem_cons]

/-- C1 (amended): for a valid register (field bits pairwise distinct and in
range, always-write bits distinct, in range and disjoint from field bits),
`get_unused_bits true` succeeds and returns `[0, bitwidth)` minus the field
bits only — the always-write bits are *included* in the returned set — while
`get_unused_bits false` returns `[0, bitwidth)` minus the field bits minus
the always-write bits, so field bits, always-write bits and
`get_unused_bits false` partition `[0, bitwidth)` with no overlap. -/
theorem get_unused_bits_partition (r : Register)
    (hfn : (fieldBitsOf r).Nodup)
    (hfw : ∀ b ∈ fieldBitsOf r, b < r.bitwidth)
    (han : (awBitsOf r).Nodup)
    (haww : ∀ b ∈ awBitsOf r, b < r.bitwidth)
    (hdisj : ∀ b ∈ awBitsOf r, b ∉ fieldBitsOf r) :
    ∃ ut uf,
      r.get_unused_bits true = some ut ∧
      r.get_unused_bits false = some uf ∧
      (∀ b, b ∈ ut.bitlist ↔ (b < r.bitwidth ∧ b ∉ fieldBitsOf r)) ∧
      (∀ b ∈ awBitsOf r, b ∈ ut.bitlist) ∧
      (∀ b, b ∈ uf.bitlist ↔ (b < r.bitwidth ∧ b ∉ fieldBitsOf r ∧ b ∉ awBitsOf r)) ∧
      (∀ b, b < r.bitwidth ↔ (b ∈ fieldBitsOf r ∨ b ∈ awBitsOf r ∨ b ∈ uf.bitlist)) := by
  have hrange := removeList_eq_filter (fieldBitsOf r) (List.range r.bitwidth)
    (List.nodup_range r.bitwidth) hfn (fun b hb => List.mem_range.mpr (hfw b hb))
  set l1 := (List.range r.bitwidth).filter (fun x => decide (x ∉ fieldBitsOf r)) with hl1
  have hl1mem : ∀ b, b ∈ l1 ↔ (b < r.bitwidth ∧ b ∉ fieldBitsOf r) := by
    intro b
    rw [hl1, List.mem_filter, List.mem_range]
    simp
  have htrue : r.get_unused_bits true = some ⟨l1⟩ := by
    simp [Register.get_unused_bits, hrange]
  cases haw : r.always_write with
  | none =>
    have hawb : awBitsOf r = [] := by simp [awBitsOf, haw]
    have hfalse : r.get_unused_bits false = some ⟨l1⟩ := by
      simp [Register.get_unused_bits, hrange, haw]
    refine ⟨⟨l1⟩, ⟨l1⟩, htrue, hfalse, hl1mem, ?_, ?_, ?_⟩
    · intro b hb
      rw [hawb] at hb
      cases hb
    · intro b
      rw [hawb]
      simp only [List.not_mem_nil, not_false_iff, and_true]
      exact hl1mem b
    · intro b
      rw [hawb]
      constructor
      · intro hbw
        by_cases h1 : b ∈ fieldBitsOf r
        · exact Or.inl h1
        · exact Or.inr (Or.inr ((hl1mem b).mpr ⟨hbw, h1⟩))
      · rintro (h1 | h1 | h1)
        · exact hfw b h1
        · cases h1
        · exact ((hl1mem b).mp h1).1
  | some aw =>
    have hawb : awBitsOf r = aw.bits.bitlist := by simp [awBitsOf, haw]
    have hsub2 : ∀ b ∈ aw.bits.bitlist, b ∈ l1 := by
      intro b hb
      rw [← hawb] at hb
      exact (hl1mem b).mpr ⟨haww b hb, hdisj b hb⟩
    have hl1nd : l1.Nodup := (List.nodup_range r.bitwidth).filter _
    have han2 : aw.bits.bitlist.Nodup := by
      rw [← hawb]
      exact han
    have hrem2 := removeList_eq_filter aw.bits.bitlist l1 hl1nd han2 hsub2
    set l2 := l1.filter (fun x => decide (x ∉ aw.bits.bitlist)) with hl2
    have hfalse : r.get_unused_bits false = some ⟨l2⟩ := by
      simp [Register.get_unused_bits, hrange, haw, hrem2]
    have hl2mem : ∀ b, b ∈ l2 ↔ (b < r.bitwidth ∧ b ∉ fieldBitsOf r ∧ b ∉ awBitsOf r) := by
      intro b
      rw [hl2, List.mem_filter, hawb]
      simp only [decide_eq_true_iff]
      rw [hl1mem b]
      tauto
    refine ⟨⟨l1⟩, ⟨l2⟩, htrue, hfalse, hl1mem, ?_, hl2mem, ?_⟩
    · intro b hb
      rw [hawb] at hb
      exact hsub2 b hb
    · intro b
      constructor
      · intro hbw
        by_cases h1 : b ∈ fieldBitsOf r
        · exact Or.inl h1
        · by_cases h2 : b ∈ awBitsOf r
          · exact Or.inr (Or.inl h2)
          · exact Or.inr (Or.inr ((hl2mem b).mpr ⟨hbw, h1, h2⟩))
      · rintro (h1 | h1 | h1)
        · exact hfw b h1
        · exact haww b h1
        · exact ((hl2mem b).mp h1).1

/-- C1 counterexample: `regC1` (bitwidth 2, field at bit 1, always-write at
bit 0) is valid, yet `get_unused_bits true` returns `[0]`, which overlaps the
always-write bit 0 — so with `include_always_write = true` the three parts
are not pairwise disjoint and the result is not `[0, bitwidth)` minus fields
minus always-write (that set is empty here, as `get_unused_bits false`
shows). -/
theorem get_unused_bits_true_keeps_always_write :
    (fieldBitsOf regC1).Nodup ∧
    (∀ b ∈ fieldBitsOf regC1, b < regC1.bitwidth) ∧
    (awBitsOf regC1).Nodup ∧
    (∀ b ∈ awBitsOf regC1, b < regC1.bitwidth) ∧
    (∀ b ∈ awBitsOf regC1, b ∉ fieldBitsOf regC1) ∧
    regC1.get_unused_bits true = some ⟨[0]⟩ ∧
    regC1.get_unused_bits false = some ⟨[]⟩ ∧
    0 ∈ awBitsOf regC1 := by
  decide

/-- C1 witness: the partition theorem applied to the concrete valid register
`regC1w` (bitwidth 4, field at bit 1, always-write at bit 0). -/
theorem get_unused_bits_partition_witness :
    ∃ ut uf,
      regC1w.get_unused_bits true = some ut ∧
      regC1w.get_unused_bits false = some uf ∧
      (∀ b, b ∈ ut.bitlist ↔ (b < regC1w.bitwidth ∧ b ∉ fieldBitsOf regC1w)) ∧
      (∀ b ∈ awBitsOf regC1w, b ∈ ut.bitlist) ∧
      (∀ b, b ∈ uf.bitlist ↔
        (b < regC1w.bitwidth ∧ b ∉ fieldBitsOf regC1w ∧ b ∉ awBitsOf regC1w)) ∧
      (∀ b, b < regC1w.bitwidth ↔
        (b ∈ fieldBitsOf regC1w ∨ b ∈ awBitsOf regC1w ∨ b ∈ uf.bitlist)) :=
  get_unused_bits_partition regC1w (by decide) (by decide) (by decide) (by decide) (by decide)

end Reginald
